import Mathlib

/-!
Verification of the BCJ2 decoder and tar-name sanitization in
`src/extract_resource.py` (functions `bcj2_decode`, `extract_tar`, `main`).

The Python code is shallowly embedded: byte buffers become `List ℕ`
(each element a byte value), 32-bit register arithmetic carries explicit
`% 4294967296` masks exactly where the source applies `& 0xFFFFFFFF`, and
any Python statement that can raise an uncaught `IndexError` (indexing a
`bytes`/`bytearray` out of range) is modelled by `Option`: `none` is an
uncaught exception (a crash), `some` is a normal return, including the
"print a diagnostic and return the output produced so far" early returns,
which the source performs with ordinary `return` statements.

`bcj2_decode` in the source returns only the produced bytes; its final
cursor positions (`in_pos`, `buf1_pos`, `buf2_pos`, `buf3_pos`) are printed
as diagnostics, so they are part of the observable behaviour and are kept
in the result record here.
-/

/-- Models a Python `buf[i] = v` store into a `bytearray`: in-bounds stores
update the buffer, out-of-bounds stores raise `IndexError` (here `none`). -/
def setAt (l : List ℕ) (i v : ℕ) : Option (List ℕ) :=
  if i < l.length then some (l.set i v) else none

/-- Line 78 of the source: `IsJ(prevByte, b)`, the control-transfer
candidate test `(b & 0xFE) == 0xE8 or (prev == 0x0F and (b & 0xF0) == 0x80)`. -/
def isJ (prev b : ℕ) : Bool :=
  (b &&& 0xFE == 0xE8) || (prev == 0x0F && (b &&& 0xF0 == 0x80))

/-- Line 36 of the source: `p = [1024] * 258`. -/
def bcj2InitProbs : List ℕ := List.replicate 258 1024

/-- Result of the inner copy loop (lines 72-84 of the source): the output
buffer, output cursor, main-stream cursor, `prev_byte`, and the triggering
byte when the loop stopped on `is_j` (otherwise `none`, i.e. `limit == 0`). -/
structure CopyRes where
  outBuf : List ℕ
  outPos : ℕ
  inPos : ℕ
  prev : ℕ
  trig : Option ℕ
deriving Repr, DecidableEq

/-- Lines 72-84 of the source, the inner copy loop of `bcj2_decode`:
`while limit != 0: b = buf0[in_pos]; out_buf[out_pos] = b; out_pos += 1;
if is_j: break; in_pos += 1; prev_byte = b; limit -= 1`.  Note the byte is
stored to the output *before* the `is_j` test. -/
def copyRun (buf0 : List ℕ) : ℕ → ℕ → List ℕ → ℕ → ℕ → Option CopyRes
  | 0, inPos, outBuf, outPos, prev => some ⟨outBuf, outPos, inPos, prev, none⟩
  | limit + 1, inPos, outBuf, outPos, prev =>
    match buf0[inPos]? with
    | none => none
    | some b =>
      match setAt outBuf outPos b with
      | none => none
      | some outBuf2 =>
        if isJ prev b then some ⟨outBuf2, outPos + 1, inPos, prev, some b⟩
        else copyRun buf0 limit (inPos + 1) outBuf2 (outPos + 1) b

/-- Lines 50-55 of the source (RC_INIT2): read `n` bytes into `code`.
`Sum.inl` is the early `return bytes(out_buf[:out_pos])` when the declared
`size3` is exhausted, `Sum.inr` is normal completion; both carry the final
`(code, buf3_pos)` pair. -/
def rcInit (buf3 : List ℕ) (size3 : ℕ) : ℕ → ℕ → ℕ → Option ((ℕ × ℕ) ⊕ (ℕ × ℕ))
  | 0, code, pos3 => some (Sum.inr (code, pos3))
  | n + 1, code, pos3 =>
    if size3 ≤ pos3 then some (Sum.inl (code, pos3))
    else
      match buf3[pos3]? with
      | none => none
      | some byte => rcInit buf3 size3 n (((code <<< 8) ||| byte) % 4294967296) (pos3 + 1)

/-- Lines 102-108 and 119-123 of the source: one range-coder bit decision
(`IF_BIT_0` / `UPDATE_0` / `UPDATE_1`), without the normalization step.
Returns the bit, the updated probability table, and the updated
`rc_range`/`code` registers.  The source computes
`(rc_range - bound) & 0xFFFFFFFF` and `(code - bound) & 0xFFFFFFFF` on
arbitrary-precision Python ints, which is integer subtraction followed by
reduction mod 2^32; that is rendered here with `Int` subtraction and `%`. -/
def rcDecodeBit (probs : List ℕ) (probIdx range code : ℕ) : Option (Bool × List ℕ × ℕ × ℕ) :=
  match probs[probIdx]? with
  | none => none
  | some ttt =>
    let bound := (range >>> 11) * ttt
    if code < bound then
      some (false, probs.set probIdx (ttt + ((2048 - ttt) >>> 5)), bound, code)
    else
      some (true, probs.set probIdx (ttt - (ttt >>> 5)),
        (((range : ℤ) - (bound : ℤ)) % 4294967296).toNat,
        (((code : ℤ) - (bound : ℤ)) % 4294967296).toNat)

/-- Outcome of a normalization step: the stream-3-exhausted early return
(lines 111-113 / 126-128 of the source), or the updated registers. -/
inductive NormRes
  | exhausted
  | ok (range code pos3 : ℕ)
deriving Repr, DecidableEq

/-- Lines 110-116 (and identically 125-131) of the source: the single
conditional normalization `if rc_range < 0x01000000: ...` pulling at most
one byte from stream 3. -/
def rcNormalize (buf3 : List ℕ) (size3 range code pos3 : ℕ) : Option NormRes :=
  if range < 16777216 then
    if size3 ≤ pos3 then some .exhausted
    else
      match buf3[pos3]? with
      | none => none
      | some byte =>
        some (.ok ((range <<< 8) % 4294967296) (((code <<< 8) ||| byte) % 4294967296) (pos3 + 1))
  else some (.ok range code pos3)

/-- Modelled from the spec (section 4.1, Normalization), for comparison with
the source's `rcNormalize` in claim C4: "after every decision, while
`range < 0x01000000`, shift `range` left by 8 bits and pull one more byte
into `code` (`code = (code<<8) | next_byte`) from the range-coder stream;
fails with StreamExhausted if no byte remains". -/
def rcNormalizeSpec (buf3 : List ℕ) (size3 : ℕ) (range code pos3 : ℕ) : Option NormRes :=
  if range < 16777216 then
    if size3 ≤ pos3 then some .exhausted
    else
      match buf3[pos3]? with
      | none => none
      | some byte =>
        rcNormalizeSpec buf3 size3 ((range <<< 8) % 4294967296)
          (((code <<< 8) ||| byte) % 4294967296) (pos3 + 1)
  else some (.ok range code pos3)
termination_by size3 - pos3
decreasing_by omega

/-- Lines 138 / 145 of the source: `v = buf[pos:pos+4]` followed by
`v[0] .. v[3]`.  Indexing the (possibly clipped) slice fails exactly when
`pos+i` is out of range of the underlying buffer. -/
def get4 (l : List ℕ) (pos : ℕ) : Option (ℕ × ℕ × ℕ × ℕ) :=
  match l[pos]?, l[pos + 1]?, l[pos + 2]?, l[pos + 3]? with
  | some a, some b, some c, some d => some (a, b, c, d)
  | _, _, _, _ => none

/-- Line 150 of the source: `(v[0] << 24) | (v[1] << 16) | (v[2] << 8) | v[3]`. -/
def be32 (v0 v1 v2 v3 : ℕ) : ℕ :=
  (v0 <<< 24) ||| (v1 <<< 16) ||| (v2 <<< 8) ||| v3

/-- Lines 150-151 of the source:
`dest = (big_endian(v) - (out_pos + 4)) & 0xFFFFFFFF` on Python ints,
i.e. integer subtraction reduced mod 2^32. -/
def bcjDest (t outPos : ℕ) : ℕ :=
  (((t : ℤ) - ((outPos : ℤ) + 4)) % 4294967296).toNat

/-- The four little-endian bytes of `dest` in the order the source emits
them (lines 153, 158, 163, 168-169): `dest & 0xFF`, `(dest >> 8) & 0xFF`,
`(dest >> 16) & 0xFF`, `(dest >> 24) & 0xFF`. -/
def leBytes4 (dest : ℕ) : List ℕ :=
  [dest % 256, (dest >>> 8) % 256, (dest >>> 16) % 256, (dest >>> 24) % 256]

/-- Lines 153-170 of the source: emit `dest` little-endian one byte at a
time, checking after each of the first three bytes whether the output has
become full (`out_pos == out_size` breaks the outer loop, flag `true`).
When all four bytes fit, `prev_byte` becomes `(dest >> 24) & 0xFF`. -/
def writeDest (outBuf : List ℕ) (outPos outSize dest prev : ℕ) :
    Option (List ℕ × ℕ × ℕ × Bool) :=
  match setAt outBuf outPos (dest % 256) with
  | none => none
  | some b1 =>
    if outPos + 1 = outSize then some (b1, outPos + 1, prev, true)
    else
      match setAt b1 (outPos + 1) ((dest >>> 8) % 256) with
      | none => none
      | some b2 =>
        if outPos + 2 = outSize then some (b2, outPos + 2, prev, true)
        else
          match setAt b2 (outPos + 2) ((dest >>> 16) % 256) with
          | none => none
          | some b3 =>
            if outPos + 3 = outSize then some (b3, outPos + 3, prev, true)
            else
              match setAt b3 (outPos + 3) ((dest >>> 24) % 256) with
              | none => none
              | some b4 => some (b4, outPos + 4, (dest >>> 24) % 256, false)

/-- The mutable state of the `while True` loop of `bcj2_decode`
(lines 66-170 of the source). -/
structure Bcj2St where
  probs : List ℕ
  inPos : ℕ
  outBuf : List ℕ
  outPos : ℕ
  prev : ℕ
  range : ℕ
  code : ℕ
  pos1 : ℕ
  rem1 : ℕ
  pos2 : ℕ
  rem2 : ℕ
  pos3 : ℕ
deriving Repr, DecidableEq

/-- The observable result of `bcj2_decode`: the returned bytes
(`bytes(out_buf[:out_pos])`) together with the final stream cursors, which
the source prints as diagnostics (lines 172-177). -/
structure Bcj2Result where
  out : List ℕ
  inPos : ℕ
  pos1 : ℕ
  pos2 : ℕ
  pos3 : ℕ
deriving Repr, DecidableEq

/-- The `while True` loop of `bcj2_decode` (lines 66-170 of the source).
The loop runs at most `size0 + 1` iterations because every iteration that
does not return advances `in_pos` by at least one; `fuel` is an upper bound
on the remaining iterations (`fuel = 0` is unreachable from the top-level
call and is modelled as `none`). -/
def bcj2Loop (buf0 : List ℕ) (size0 : ℕ) (buf1 buf2 buf3 : List ℕ)
    (size3 outSize : ℕ) : ℕ → Bcj2St → Option Bcj2Result
  | 0, _ => none
  | fuel + 1, st =>
    match copyRun buf0 (min (size0 - st.inPos) (outSize - st.outPos))
        st.inPos st.outBuf st.outPos st.prev with
    | none => none
    | some cr =>
      match cr.trig with
      | none => some ⟨cr.outBuf.take cr.outPos, cr.inPos, st.pos1, st.pos2, st.pos3⟩
      | some _ =>
        if cr.outPos = outSize then
          some ⟨cr.outBuf.take cr.outPos, cr.inPos, st.pos1, st.pos2, st.pos3⟩
        else
          match buf0[cr.inPos]? with
          | none => none
          | some b =>
            match rcDecodeBit st.probs
                (if b = 0xE8 then cr.prev else if b = 0xE9 then 256 else 257)
                st.range st.code with
            | none => none
            | some (bit, probs2, range2, code2) =>
              match rcNormalize buf3 size3 range2 code2 st.pos3 with
              | none => none
              | some .exhausted =>
                some ⟨cr.outBuf.take cr.outPos, cr.inPos + 1, st.pos1, st.pos2, st.pos3⟩
              | some (.ok range3 code3 pos3b) =>
                if bit = false then
                  bcj2Loop buf0 size0 buf1 buf2 buf3 size3 outSize fuel
                    ⟨probs2, cr.inPos + 1, cr.outBuf, cr.outPos, b, range3, code3,
                      st.pos1, st.rem1, st.pos2, st.rem2, pos3b⟩
                else
                  if b = 0xE8 then
                    if st.rem1 < 4 then
                      some ⟨cr.outBuf.take cr.outPos, cr.inPos + 1, st.pos1, st.pos2, pos3b⟩
                    else
                      match get4 buf1 st.pos1 with
                      | none => none
                      | some (v0, v1, v2, v3) =>
                        match writeDest cr.outBuf cr.outPos outSize
                            (bcjDest (be32 v0 v1 v2 v3) cr.outPos) cr.prev with
                        | none => none
                        | some (outBuf2, outPos2, prev2, broke) =>
                          if broke then
                            some ⟨outBuf2.take outPos2, cr.inPos + 1,
                              st.pos1 + 4, st.pos2, pos3b⟩
                          else
                            bcj2Loop buf0 size0 buf1 buf2 buf3 size3 outSize fuel
                              ⟨probs2, cr.inPos + 1, outBuf2, outPos2, prev2, range3,
                                code3, st.pos1 + 4, st.rem1 - 4, st.pos2, st.rem2, pos3b⟩
                  else
                    if st.rem2 < 4 then
                      some ⟨cr.outBuf.take cr.outPos, cr.inPos + 1, st.pos1, st.pos2, pos3b⟩
                    else
                      match get4 buf2 st.pos2 with
                      | none => none
                      | some (v0, v1, v2, v3) =>
                        match writeDest cr.outBuf cr.outPos outSize
                            (bcjDest (be32 v0 v1 v2 v3) cr.outPos) cr.prev with
                        | none => none
                        | some (outBuf2, outPos2, prev2, broke) =>
                          if broke then
                            some ⟨outBuf2.take outPos2, cr.inPos + 1,
                              st.pos1, st.pos2 + 4, pos3b⟩
                          else
                            bcj2Loop buf0 size0 buf1 buf2 buf3 size3 outSize fuel
                              ⟨probs2, cr.inPos + 1, outBuf2, outPos2, prev2, range3,
                                code3, st.pos1, st.rem1, st.pos2 + 4, st.rem2 - 4, pos3b⟩

/-- Lines 26-179 of the source: `bcj2_decode`.  The sizes are the declared
stream sizes (which the caller takes from the header); the buffers are the
actual byte lists. -/
def bcj2_decode (buf0 : List ℕ) (size0 : ℕ) (buf1 : List ℕ) (size1 : ℕ)
    (buf2 : List ℕ) (size2 : ℕ) (buf3 : List ℕ) (size3 : ℕ)
    (outSize : ℕ) : Option Bcj2Result :=
  match rcInit buf3 size3 5 0 0 with
  | none => none
  | some (Sum.inl (_, pos3)) => some ⟨[], 0, 0, 0, pos3⟩
  | some (Sum.inr (code, pos3)) =>
    if outSize = 0 then some ⟨[], 0, 0, 0, pos3⟩
    else
      bcj2Loop buf0 size0 buf1 buf2 buf3 size3 outSize (size0 + 1)
        ⟨bcj2InitProbs, 0, List.replicate outSize 0, 0, 0, 4294967295, code,
          0, size1, 0, size2, pos3⟩

/-- Lines 289-293 of the source: `struct.unpack_from('<I', data, off)`. -/
def readLE32 (data : List ℕ) (off : ℕ) : ℕ :=
  data.getD off 0 + 256 * data.getD (off + 1) 0 + 65536 * data.getD (off + 2) 0 +
    16777216 * data.getD (off + 3) 0

/-- Lines 285-325 of the source (`main`, steps 2-3): parse the 20-byte
header, slice the four streams out of the post-header bytes (Python slices
clip to the actual data), and run `bcj2_decode` with the declared sizes.
Fewer than 20 header bytes is the fatal `sys.exit(1)` path, also `none`. -/
def pipelineDecode (data : List ℕ) : Option Bcj2Result :=
  if data.length < 20 then none
  else
    let originalSize := readLE32 data 0
    let s0 := readLE32 data 4
    let s1 := readLE32 data 8
    let s2 := readLE32 data 12
    let s3 := readLE32 data 16
    let rest := data.drop 20
    let buf0 := rest.take s0
    let rest1 := rest.drop s0
    let buf1 := rest1.take s1
    let rest2 := rest1.drop s1
    let buf2 := rest2.take s2
    let rest3 := rest2.drop s2
    let buf3 := rest3.take s3
    bcj2_decode buf0 s0 buf1 s1 buf2 s2 buf3 s3 originalSize

/-- Line 231 of the source: `name.replace('..', '_')` specialised to the
pattern `".."` — Python replaces leftmost non-overlapping occurrences,
scanning left to right. -/
def replaceDotDot : List Char → List Char
  | [] => []
  | [c] => [c]
  | a :: b :: rest =>
    if a = '.' ∧ b = '.' then '_' :: replaceDotDot rest
    else a :: replaceDotDot (b :: rest)

/-- Decides whether a character list contains `".."` as a substring. -/
def hasDotDot : List Char → Bool
  | [] => false
  | [_] => false
  | a :: b :: rest => (a == '.' && b == '.') || hasDotDot (b :: rest)

/-- Lines 230-231 of the source: `name = name.lstrip('/');
name = name.replace('..', '_')`. -/
def sanitizeName (name : List Char) : List Char :=
  replaceDotDot (name.dropWhile (fun c => c == '/'))

/-! ## Supporting lemmas -/

/-- A successful `setAt` means the index was in bounds and the result is `List.set`. -/
lemma setAt_eq_some {l : List ℕ} {i v : ℕ} {l2 : List ℕ} (h : setAt l i v = some l2) :
    i < l.length ∧ l2 = l.set i v := by
  unfold setAt at h
  split at h
  · exact ⟨by assumption, by injection h with h2; exact h2.symm⟩
  · cases h

lemma setAt_of_lt (l : List ℕ) (i v : ℕ) (h : i < l.length) :
    setAt l i v = some (l.set i v) := by
  unfold setAt
  simp [h]

/-- Python's `(a - b) & 0xFFFFFFFF` on ints agrees with truncated
natural subtraction when `b ≤ a < 2^32`. -/
lemma sub_mask_eq {a b : ℕ} (hba : b ≤ a) (ha : a < 4294967296) :
    (((a : ℤ) - (b : ℤ)) % 4294967296).toNat = a - b := by
  omega

/-- The range-coder bound never exceeds the range while the probability
stays below 2^11. -/
lemma bound_le_range {range p : ℕ} (hp : p < 2048) : (range >>> 11) * p ≤ range := by
  rw [Nat.shiftRight_eq_div_pow]
  calc range / 2 ^ 11 * p ≤ range / 2 ^ 11 * 2048 := Nat.mul_le_mul_left _ (by omega)
    _ = range / 2048 * 2048 := by norm_num
    _ ≤ range := Nat.div_mul_le_self range 2048


/-! ## Claim C1: the single-bit decode step -/

/-- Claim C1: for a single-bit decode step with state `(code, range)` and
selected probability slot value `p`: `bound = (range >> 11) * p`; if
`code < bound` the bit is 0, `range` becomes `bound` and the slot becomes
`p + ((2048 - p) >> 5)`; otherwise the bit is 1, `range` becomes
`range - bound`, `code` becomes `code - bound`, and the slot becomes
`p - (p >> 5)`, all register arithmetic taken modulo 2^32. -/
theorem c1_decode_bit_step (probs : List ℕ) (probIdx range code p : ℕ)
    (hget : probs[probIdx]? = some p) (hp : p < 2048) (hr : range < 4294967296) :
    rcDecodeBit probs probIdx range code =
      some (if code < (range >>> 11) * p then
              (false, probs.set probIdx (p + ((2048 - p) >>> 5)), (range >>> 11) * p, code)
            else
              (true, probs.set probIdx (p - (p >>> 5)),
                (range - (range >>> 11) * p) % 4294967296,
                (code - (range >>> 11) * p) % 4294967296)) := by
  have hble : (range >>> 11) * p ≤ range := bound_le_range hp
  unfold rcDecodeBit
  rw [hget]
  simp only
  split
  · rfl
  · rename_i hge
    have hbc : (range >>> 11) * p ≤ code := by omega
    have e1 : (((range : ℤ) - ((range >>> 11) * p : ℕ)) % 4294967296).toNat
        = (range - (range >>> 11) * p) % 4294967296 := by
      rw [sub_mask_eq hble hr]
      omega
    have e2 : (((code : ℤ) - ((range >>> 11) * p : ℕ)) % 4294967296).toNat
        = (code - (range >>> 11) * p) % 4294967296 := by
      omega
    rw [e1, e2]

/-- Witness for C1 at a concrete input. -/
theorem c1_decode_bit_step_witness :
    rcDecodeBit [1024] 0 4294967295 0 =
      some (if 0 < (4294967295 >>> 11) * 1024 then
              (false, [1024].set 0 (1024 + ((2048 - 1024) >>> 5)), (4294967295 >>> 11) * 1024, 0)
            else
              (true, [1024].set 0 (1024 - (1024 >>> 5)),
                (4294967295 - (4294967295 >>> 11) * 1024) % 4294967296,
                (0 - (4294967295 >>> 11) * 1024) % 4294967296)) :=
  c1_decode_bit_step [1024] 0 4294967295 0 1024 rfl (by decide) (by decide)

/-! ## Claim C3: address rebasing -/

/-- The big-endian reassembly of four bytes is a 32-bit value. -/
lemma be32_lt {v0 v1 v2 v3 : ℕ} (h0 : v0 < 256) (h1 : v1 < 256) (h2 : v2 < 256)
    (h3 : v3 < 256) : be32 v0 v1 v2 v3 < 4294967296 := by
  unfold be32
  have e24 : v0 <<< 24 < 2 ^ 32 := by rw [Nat.shiftLeft_eq]; omega
  have e16 : v1 <<< 16 < 2 ^ 32 := by rw [Nat.shiftLeft_eq]; omega
  have e8 : v2 <<< 8 < 2 ^ 32 := by rw [Nat.shiftLeft_eq]; omega
  have e0 : v3 < 2 ^ 32 := by omega
  have := Nat.or_lt_two_pow (Nat.or_lt_two_pow (Nat.or_lt_two_pow e24 e16) e8) e0
  omega

/-- Claim C3: when a patch is applied, the four bytes emitted little-endian
at output positions `P..P+4` (computed from `dest = bcjDest T P` exactly as
the source emits them) satisfy
`little_endian(bytes) + (P + 4) == T (mod 2^32)`, where `T` is the
big-endian value of the 4 bytes read from the selected address stream. -/
theorem c3_address_rebase (v0 v1 v2 v3 P : ℕ)
    (h0 : v0 < 256) (h1 : v1 < 256) (h2 : v2 < 256) (h3 : v3 < 256) :
    ((bcjDest (be32 v0 v1 v2 v3) P) % 256
      + 256 * ((bcjDest (be32 v0 v1 v2 v3) P >>> 8) % 256)
      + 65536 * ((bcjDest (be32 v0 v1 v2 v3) P >>> 16) % 256)
      + 16777216 * ((bcjDest (be32 v0 v1 v2 v3) P >>> 24) % 256)
      + (P + 4)) % 4294967296 = be32 v0 v1 v2 v3 := by
  have ht : be32 v0 v1 v2 v3 < 4294967296 := be32_lt h0 h1 h2 h3
  generalize be32 v0 v1 v2 v3 = t at ht ⊢
  have hd : bcjDest t P < 4294967296 ∧ (bcjDest t P + P + 4) % 4294967296 = t % 4294967296 := by
    unfold bcjDest
    omega
  rw [Nat.shiftRight_eq_div_pow, Nat.shiftRight_eq_div_pow, Nat.shiftRight_eq_div_pow]
  norm_num
  omega

/-- Witness for C3 at a concrete input. -/
theorem c3_address_rebase_witness :
    ((bcjDest (be32 0 0 0 16) 1) % 256
      + 256 * ((bcjDest (be32 0 0 0 16) 1 >>> 8) % 256)
      + 65536 * ((bcjDest (be32 0 0 0 16) 1 >>> 16) % 256)
      + 16777216 * ((bcjDest (be32 0 0 0 16) 1 >>> 24) % 256)
      + (1 + 4)) % 4294967296 = be32 0 0 0 16 :=
  c3_address_rebase 0 0 0 16 1 (by decide) (by decide) (by decide) (by decide)

/-! ## Claim C8: probability table initialization and range invariant -/

/-- Claim C8: every decoder session starts with all 258 probability slots
equal to 1024, and a bit decode keeps every slot in `[0, 2048)`: both
updates `p + ((2048 - p) >> 5)` and `p - (p >> 5)` preserve the range
(the lower bound 0 is automatic on ℕ, matching the nonnegative Python ints). -/
theorem c8_probs_invariant :
    (∀ i, i < 258 → bcj2InitProbs[i]? = some 1024) ∧
    (∀ probs probIdx range code bit probs2 range2 code2,
      (∀ x ∈ probs, x < 2048) →
      rcDecodeBit probs probIdx range code = some (bit, probs2, range2, code2) →
      ∀ x ∈ probs2, x < 2048) := by
  constructor
  · intro i hi
    unfold bcj2InitProbs
    rw [List.getElem?_replicate]
    simp only [hi, if_true]
  · intro probs probIdx range code bit probs2 range2 code2 hall heq x hx
    unfold rcDecodeBit at heq
    cases hget : probs[probIdx]? with
    | none => rw [hget] at heq; cases heq
    | some ttt =>
      rw [hget] at heq
      have httt : ttt < 2048 := hall ttt (List.getElem?_mem hget)
      simp only at heq
      split at heq <;>
        ( simp only [Option.some.injEq, Prod.mk.injEq] at heq
          obtain ⟨-, hpr, -⟩ := heq
          subst hpr
          rcases List.mem_or_eq_of_mem_set hx with hmem | hval
          · exact hall x hmem
          · subst hval
            rw [Nat.shiftRight_eq_div_pow]
            omega )

/-- Witness for C8 at a concrete input. -/
theorem c8_probs_invariant_witness : (992 : ℕ) < 2048 :=
  c8_probs_invariant.2 [1024] 0 0 0 true [992] 0 0
    (by intro x hx; simp at hx; omega) rfl 992 (by simp)

/-! ## Claim C9: tar name sanitization -/

/-- The head of a sanitized nonempty list is the original head or an
underscore (and an underscore only arises from a leading dot). -/
lemma replaceDotDot_head (b : Char) (rest : List Char) :
    (replaceDotDot (b :: rest)).head? = some b ∨
      ((replaceDotDot (b :: rest)).head? = some '_' ∧ b = '.') := by
  cases rest with
  | nil => left; rfl
  | cons r0 rest2 =>
    unfold replaceDotDot
    split
    · right
      rename_i h
      exact ⟨rfl, h.1⟩
    · left; rfl

/-- Replacing every `".."` occurrence leaves no `".."` substring. -/
lemma hasDotDot_replaceDotDot (l : List Char) : hasDotDot (replaceDotDot l) = false := by
  induction l using replaceDotDot.induct with
  | case1 => rfl
  | case2 c => rfl
  | case3 a b rest h ih =>
    rw [replaceDotDot]
    rw [if_pos h]
    cases hr : replaceDotDot rest with
    | nil => rfl
    | cons c xs =>
      rw [hr] at ih
      simp [hasDotDot, ih]
  | case4 a b rest h ih =>
    rw [replaceDotDot]
    rw [if_neg h]
    cases hr : replaceDotDot (b :: rest) with
    | nil => rfl
    | cons c xs =>
      rw [hr] at ih
      simp only [hasDotDot, ih, Bool.or_false]
      rcases replaceDotDot_head b rest with hh | ⟨hh, hb⟩ <;> rw [hr] at hh <;>
        simp only [List.head?_cons, Option.some.injEq] at hh <;> subst hh
      · by_cases ha : a = '.'
        · have hc2 : c ≠ '.' := fun hb2 => h ⟨ha, hb2⟩
          simp [hc2]
        · simp [ha]
      · subst hb
        have ha : a ≠ '.' := fun ha2 => h ⟨ha2, rfl⟩
        simp [ha]

/-- Claim C9: for every entry name, the sanitized name (leading slashes
stripped, every `".."` substring replaced) contains no `".."` substring and
does not start with `'/'`, confining the joined path under the output root. -/
theorem c9_sanitize (s : List Char) :
    hasDotDot (sanitizeName s) = false ∧
      ∀ c, (sanitizeName s).head? = some c → c ≠ '/' := by
  constructor
  · exact hasDotDot_replaceDotDot _
  · intro c hc
    unfold sanitizeName at hc
    have hdw := List.head?_dropWhile_not (fun c => c == '/') s
    cases hl : s.dropWhile (fun c => c == '/') with
    | nil => rw [hl] at hc; cases hc
    | cons b rest =>
      rw [hl] at hc hdw
      simp only [List.head?_cons] at hdw
      rcases replaceDotDot_head b rest with hh | ⟨hh, -⟩ <;> rw [hc] at hh <;>
        simp only [Option.some.injEq] at hh <;> subst hh
      · simpa using hdw
      · decide

/-- Witness for C9 at a concrete input (the spec's `"../../etc/passwd"`-style
scenario, with a leading slash). -/
theorem c9_sanitize_witness :
    hasDotDot (sanitizeName ['/', '.', '.', '/', '.', '.', '/', 'e']) = false :=
  (c9_sanitize ['/', '.', '.', '/', '.', '.', '/', 'e']).1

/-! ## Claim C7: 5-byte seeding and empty output -/

/-- Claim C7: with stream 3 declared and actually 5 bytes long (the seed
only) and `original_size == 0`, decoding returns an empty output with no
error, and the seeding has consumed exactly 5 bytes of stream 3 (final
`buf3_pos = 5`) before any bit is decoded. -/
theorem c7_empty_decode (buf0 : List ℕ) (size0 : ℕ) (buf1 : List ℕ) (size1 : ℕ)
    (buf2 : List ℕ) (size2 : ℕ) (buf3 : List ℕ) (h3 : buf3.length = 5) :
    bcj2_decode buf0 size0 buf1 size1 buf2 size2 buf3 5 0 = some ⟨[], 0, 0, 0, 5⟩ := by
  obtain ⟨b0, t0, rfl⟩ := List.exists_of_length_succ buf3 h3
  simp only [List.length_cons, Nat.succ.injEq] at h3
  obtain ⟨b1, t1, rfl⟩ := List.exists_of_length_succ t0 h3
  simp only [List.length_cons, Nat.succ.injEq] at h3
  obtain ⟨b2, t2, rfl⟩ := List.exists_of_length_succ t1 h3
  simp only [List.length_cons, Nat.succ.injEq] at h3
  obtain ⟨b3, t3, rfl⟩ := List.exists_of_length_succ t2 h3
  simp only [List.length_cons, Nat.succ.injEq] at h3
  obtain ⟨b4, t4, rfl⟩ := List.exists_of_length_succ t3 h3
  simp only [List.length_cons, Nat.succ.injEq] at h3
  have ht4 : t4 = [] := List.length_eq_zero.mp h3
  subst ht4
  rfl

/-- Witness for C7 at a concrete input. -/
theorem c7_empty_decode_witness :
    bcj2_decode [] 0 [] 0 [] 0 [0, 0, 0, 0, 0] 5 0 = some ⟨[], 0, 0, 0, 5⟩ :=
  c7_empty_decode [] 0 [] 0 [] 0 [0, 0, 0, 0, 0] rfl

/-! ## Claims C2 and C10: the copy run and its stop instant -/

/-- What holds when the copy loop stops on a control-transfer candidate:
the candidate `b` satisfies `isJ`, it has already been stored in the output
(at `outPos - 1`, the cursor having moved past it), and the main-stream
cursor still points at it. -/
lemma copyRun_trig (buf0 : List ℕ) :
    ∀ (limit inPos : ℕ) (outBuf : List ℕ) (outPos prev : ℕ) (cr : CopyRes) (b : ℕ),
      copyRun buf0 limit inPos outBuf outPos prev = some cr → cr.trig = some b →
      isJ cr.prev b = true ∧ buf0[cr.inPos]? = some b ∧ inPos ≤ cr.inPos ∧
        cr.outPos = outPos + (cr.inPos - inPos) + 1 ∧
        cr.outBuf[cr.outPos - 1]? = some b ∧ cr.outBuf.length = outBuf.length := by
  intro limit
  induction limit with
  | zero =>
    intro inPos outBuf outPos prev cr b hcr htr
    simp only [copyRun, Option.some.injEq] at hcr
    subst hcr
    simp at htr
  | succ n ih =>
    intro inPos outBuf outPos prev cr b hcr htr
    rw [copyRun] at hcr
    cases hb0 : buf0[inPos]? with
    | none => rw [hb0] at hcr; cases hcr
    | some b0 =>
      simp only [hb0] at hcr
      cases hset : setAt outBuf outPos b0 with
      | none => simp only [hset] at hcr; cases hcr
      | some ob2 =>
        simp only [hset] at hcr
        obtain ⟨hlt, rfl⟩ := setAt_eq_some hset
        by_cases hj : isJ prev b0 = true
        · rw [if_pos hj] at hcr
          simp only [Option.some.injEq] at hcr
          subst hcr
          simp only at htr ⊢
          injection htr with htr
          subst htr
          refine ⟨hj, hb0, le_refl _, by omega, ?_, by simp⟩
          simp only [Nat.add_sub_cancel]
          exact List.getElem?_set_self hlt
        · rw [if_neg hj] at hcr
          obtain ⟨h1, h2, h3, h4, h5, h6⟩ := ih (inPos + 1) _ (outPos + 1) b0 cr b hcr htr
          refine ⟨h1, h2, by omega, by omega, h5, by simpa using h6⟩

/-- Counterexample for C2 as stated: on main stream `[0xE8]` with
`original_size = 1`, the decode stops on the candidate byte and the
candidate `0xE8` *has* been copied to the output (it is the entire output),
while the main cursor (`in_pos = 0`) still points at it. -/
theorem c2_counterexample :
    bcj2_decode [232] 1 [] 0 [] 0 [0, 0, 0, 0, 0] 5 1 = some ⟨[232], 0, 0, 0, 5⟩ := rfl

/-- Claim C2 (amended): the copy run copies bytes verbatim while tracking
`prev_byte` and stops the instant a byte `b` satisfies the candidate test;
at that instant `b` *has already been copied* to the output (the output
cursor has moved past it), while the main-stream cursor has *not* been
advanced past it (it still points at `b`). -/
theorem c2_copy_run_stop (buf0 : List ℕ) (limit inPos : ℕ) (outBuf : List ℕ)
    (outPos prev : ℕ) (cr : CopyRes) (b : ℕ)
    (hcr : copyRun buf0 limit inPos outBuf outPos prev = some cr)
    (htr : cr.trig = some b) :
    isJ cr.prev b = true ∧ buf0[cr.inPos]? = some b ∧ inPos ≤ cr.inPos ∧
      cr.outPos = outPos + (cr.inPos - inPos) + 1 ∧
      cr.outBuf[cr.outPos - 1]? = some b := by
  obtain ⟨h1, h2, h3, h4, h5, -⟩ := copyRun_trig buf0 limit inPos outBuf outPos prev cr b hcr htr
  exact ⟨h1, h2, h3, h4, h5⟩

/-- Witness for the amended C2 at a concrete input. -/
theorem c2_copy_run_stop_witness :
    isJ 0 232 = true ∧ [232][0]? = some 232 ∧ 0 ≤ 0 ∧ 1 = 0 + (0 - 0) + 1 ∧
      [232][(1 : ℕ) - 1]? = some 232 := by
  have h := c2_copy_run_stop [232] 1 0 [0] 0 0 ⟨[232], 1, 0, 0, some 232⟩ 232 rfl rfl
  exact h

/-- Claim C10: if copying a control-transfer candidate makes the output
exactly full, the loop terminates at once: no range-coder bit is decoded and
the result's stream-1/2/3 cursors are the state's, unchanged; the candidate
byte is the final output byte, and the output has exactly `original_size`
bytes. -/
theorem c10_candidate_fills_output (buf0 : List ℕ) (size0 : ℕ) (buf1 buf2 buf3 : List ℕ)
    (size3 outSize fuel : ℕ) (st : Bcj2St) (cr : CopyRes) (b : ℕ)
    (hlen : st.outBuf.length = outSize)
    (hcr : copyRun buf0 (min (size0 - st.inPos) (outSize - st.outPos)) st.inPos st.outBuf
      st.outPos st.prev = some cr)
    (htr : cr.trig = some b)
    (hfull : cr.outPos = outSize) :
    bcj2Loop buf0 size0 buf1 buf2 buf3 size3 outSize (fuel + 1) st =
        some ⟨cr.outBuf.take cr.outPos, cr.inPos, st.pos1, st.pos2, st.pos3⟩ ∧
      (cr.outBuf.take cr.outPos)[cr.outPos - 1]? = some b ∧
      (cr.outBuf.take cr.outPos).length = outSize := by
  obtain ⟨-, -, -, hpos, hbyte, hblen⟩ :=
    copyRun_trig buf0 _ st.inPos st.outBuf st.outPos st.prev cr b hcr htr
  refine ⟨?_, ?_, ?_⟩
  · rw [bcj2Loop]
    rw [hcr]
    obtain ⟨cob, cop, cip, cpr, ctr⟩ := cr
    subst htr
    simp only at hfull
    subst hfull
    simp
  · rw [List.getElem?_take_of_lt (by omega)]
    exact hbyte
  · rw [List.length_take]
    omega

/-- Witness for C10 at a concrete input. -/
theorem c10_candidate_fills_output_witness :
    bcj2Loop [232] 1 [] [] [] 0 1 1
        ⟨bcj2InitProbs, 0, [0], 0, 0, 4294967295, 0, 0, 0, 0, 0, 0⟩ =
        some ⟨[232].take 1, 0, 0, 0, 0⟩ ∧
      ([232].take (1 : ℕ))[(1 : ℕ) - 1]? = some 232 ∧
      ([232].take (1 : ℕ)).length = 1 :=
  c10_candidate_fills_output [232] 1 [] [] [] 0 1 0
    ⟨bcj2InitProbs, 0, [0], 0, 0, 4294967295, 0, 0, 0, 0, 0, 0⟩
    ⟨[232], 1, 0, 0, some 232⟩ 232 rfl rfl rfl rfl

/-! ## Claim C4: single conditional normalization vs the spec's while-loop -/

/-- On any state with `range ≥ 2^16`, the source's single conditional
normalization agrees with the spec's while-loop normalization. -/
lemma norm_eq_spec (buf3 : List ℕ) (size3 range code pos3 : ℕ) (h : 65536 ≤ range) :
    rcNormalize buf3 size3 range code pos3 = rcNormalizeSpec buf3 size3 range code pos3 := by
  rw [rcNormalize, rcNormalizeSpec]
  split
  · rename_i hlt
    split
    · rfl
    · cases hb : buf3[pos3]? with
      | none => simp only [hb]
      | some byte =>
        simp only [hb]
        have hsh : (range <<< 8) % 4294967296 = range * 256 := by
          rw [Nat.shiftLeft_eq]
          norm_num
          omega
        rw [rcNormalizeSpec, hsh, if_neg (by omega)]
  · rfl

/-- The updated range after a bit decision is at least `2^13 * 31` when the
pre-decision range is normalized and the probability is at least 31. -/
lemma bound_ge {range p : ℕ} (hr : 16777216 ≤ range) (hp : 31 ≤ p) :
    253952 ≤ (range >>> 11) * p := by
  rw [Nat.shiftRight_eq_div_pow]
  have h1 : 8192 ≤ range / 2 ^ 11 := by
    rw [Nat.le_div_iff_mul_le (by norm_num)]
    omega
  calc (253952 : ℕ) = 8192 * 31 := by norm_num
    _ ≤ range / 2 ^ 11 * p := Nat.mul_le_mul h1 hp

/-- The bit-1 branch's updated range is at least `2^16` when the
pre-decision range is normalized and the probability is at most 2017. -/
lemma sub_bound_ge {range p : ℕ} (hr : 16777216 ≤ range) (hp2 : p ≤ 2017) :
    65536 ≤ range - (range >>> 11) * p := by
  rw [Nat.shiftRight_eq_div_pow]
  have h1 : 8192 ≤ range / 2 ^ 11 := by
    rw [Nat.le_div_iff_mul_le (by norm_num)]
    omega
  have hb : range / 2 ^ 11 * p ≤ range / 2 ^ 11 * 2017 := Nat.mul_le_mul_left _ hp2
  have h2 : (2 : ℕ) ^ 11 = 2048 := by norm_num
  rw [h2] at h1 hb ⊢
  omega

/-- A successful normalization restores `2^24 ≤ range < 2^32` from any
post-decision range in `[2^16, 2^32)`. -/
lemma rcNormalize_ok_bounds {buf3 : List ℕ} {size3 range code pos3 r c q : ℕ}
    (hr : 65536 ≤ range) (hr2 : range < 4294967296)
    (h : rcNormalize buf3 size3 range code pos3 = some (.ok r c q)) :
    16777216 ≤ r ∧ r < 4294967296 := by
  unfold rcNormalize at h
  split at h
  · rename_i hlt
    split at h
    · cases h
    · cases hb : buf3[pos3]? with
      | none => rw [hb] at h; cases h
      | some byte =>
        rw [hb] at h
        simp only [Option.some.injEq, NormRes.ok.injEq] at h
        obtain ⟨hreq, -, -⟩ := h
        have hsh : (range <<< 8) % 4294967296 = range * 256 := by
          rw [Nat.shiftLeft_eq]
          norm_num
          omega
        rw [hsh] at hreq
        omega
  · rename_i hge
    simp only [Option.some.injEq, NormRes.ok.injEq] at h
    obtain ⟨hreq, -, -⟩ := h
    omega

/-- Claim C4: after every bit decision from a reachable range-coder state
(normalized `range` in `[2^24, 2^32)` and probability slot in `[31, 2017]`,
which hold initially with `range = 0xFFFFFFFF`, `p = 1024` and are restored
after every decode-and-normalize step), the source's single conditional
normalization is equivalent to the spec's while-loop normalization — in
particular in the stream-exhausted case both report exhaustion, on which the
output produced so far is returned — and a successful normalization restores
`range ≥ 0x01000000`. -/
theorem c4_normalization (probs : List ℕ) (probIdx range code p : ℕ)
    (buf3 : List ℕ) (size3 pos3 : ℕ)
    (hget : probs[probIdx]? = some p)
    (hr1 : 16777216 ≤ range) (hr2 : range < 4294967296)
    (hp1 : 31 ≤ p) (hp2 : p ≤ 2017)
    (bit : Bool) (probs2 : List ℕ) (range2 code2 : ℕ)
    (hbit : rcDecodeBit probs probIdx range code = some (bit, probs2, range2, code2)) :
    rcNormalize buf3 size3 range2 code2 pos3 = rcNormalizeSpec buf3 size3 range2 code2 pos3 ∧
      ∀ range3 code3 pos3b,
        rcNormalize buf3 size3 range2 code2 pos3 = some (.ok range3 code3 pos3b) →
        16777216 ≤ range3 ∧ range3 < 4294967296 := by
  have hrange2 : 65536 ≤ range2 ∧ range2 < 4294967296 := by
    unfold rcDecodeBit at hbit
    rw [hget] at hbit
    simp only at hbit
    split at hbit <;> simp only [Option.some.injEq, Prod.mk.injEq] at hbit <;>
      obtain ⟨-, -, hr2eq, -⟩ := hbit
    · constructor
      · have := bound_ge hr1 hp1
        omega
      · have : (range >>> 11) * p ≤ range := bound_le_range (by omega)
        omega
    · have hble : (range >>> 11) * p ≤ range := bound_le_range (by omega)
      rw [sub_mask_eq hble hr2] at hr2eq
      have := sub_bound_ge hr1 hp2
      constructor <;> omega
  exact ⟨norm_eq_spec _ _ _ _ _ hrange2.1,
    fun r3 c3 p3 h => rcNormalize_ok_bounds hrange2.1 hrange2.2 h⟩

/-- Witness for C4 at a concrete input (the equivalence conjunct). -/
theorem c4_normalization_witness :
    rcNormalize [] 0 2147482624 0 0 = rcNormalizeSpec [] 0 2147482624 0 0 :=
  (c4_normalization [1024] 0 4294967295 0 1024 [] 0 0 rfl (by decide) (by decide)
    (by decide) (by decide) false [1056] 2147482624 0 rfl).1

/-! ## Claim C5: truncation inside a 4-byte patch -/

/-- When the output becomes full after `k ∈ {1,2,3}` of the four patch
bytes, `writeDest` stores exactly the first `k` little-endian bytes of
`dest`, signals the outer-loop break, leaves `prev` unchanged, and performs
no out-of-bounds store. -/
lemma writeDest_exact (outBuf : List ℕ) (outPos outSize dest prev k : ℕ)
    (hk3 : k = 1 ∨ k = 2 ∨ k = 3) (hk : outPos + k = outSize)
    (hlen : outBuf.length = outSize) :
    writeDest outBuf outPos outSize dest prev =
      some (outBuf.take outPos ++ (leBytes4 dest).take k, outSize, prev, true) := by
  unfold writeDest
  rcases hk3 with rfl | rfl | rfl
  · obtain rfl : outSize = outPos + 1 := by omega
    simp only [setAt_of_lt outBuf outPos (dest % 256) (by omega), eq_self_iff_true, if_true,
      Option.some.injEq, Prod.mk.injEq, and_true, true_and]
    apply List.ext_getElem?
    intro n
    simp only [List.getElem?_set, List.length_set, List.getElem?_append, List.length_take,
      hlen, List.getElem?_take, leBytes4, List.take_succ_cons, List.take_zero,
      List.getElem?_cons, List.getElem?_nil]
    split_ifs <;> first | rfl | omega | (rw [List.getElem?_eq_none (by omega)])
  · obtain rfl : outSize = outPos + 2 := by omega
    simp only [setAt_of_lt outBuf outPos (dest % 256) (by omega),
      if_neg (show ¬ outPos + 1 = outPos + 2 by omega),
      setAt_of_lt (outBuf.set outPos (dest % 256)) (outPos + 1) ((dest >>> 8) % 256)
        (by simp only [List.length_set]; omega),
      eq_self_iff_true, if_true, Option.some.injEq, Prod.mk.injEq, and_true, true_and]
    apply List.ext_getElem?
    intro n
    simp only [List.getElem?_set, List.length_set, List.getElem?_append, List.length_take,
      hlen, List.getElem?_take, leBytes4, List.take_succ_cons, List.take_zero,
      List.getElem?_cons, List.getElem?_nil]
    split_ifs <;> first | rfl | omega | (rw [List.getElem?_eq_none (by omega)])
  · obtain rfl : outSize = outPos + 3 := by omega
    simp only [setAt_of_lt outBuf outPos (dest % 256) (by omega),
      if_neg (show ¬ outPos + 1 = outPos + 3 by omega),
      setAt_of_lt (outBuf.set outPos (dest % 256)) (outPos + 1) ((dest >>> 8) % 256)
        (by simp only [List.length_set]; omega),
      if_neg (show ¬ outPos + 2 = outPos + 3 by omega),
      setAt_of_lt ((outBuf.set outPos (dest % 256)).set (outPos + 1) ((dest >>> 8) % 256))
        (outPos + 2) ((dest >>> 16) % 256) (by simp only [List.length_set]; omega),
      eq_self_iff_true, if_true, Option.some.injEq, Prod.mk.injEq, and_true, true_and]
    apply List.ext_getElem?
    intro n
    simp only [List.getElem?_set, List.length_set, List.getElem?_append, List.length_take,
      hlen, List.getElem?_take, leBytes4, List.take_succ_cons, List.take_zero,
      List.getElem?_cons, List.getElem?_nil]
    split_ifs <;> first | rfl | omega | (rw [List.getElem?_eq_none (by omega)])

/-- Claim C5: when `original_size` falls strictly inside a 4-byte address
patch (k ∈ {1,2,3} bytes of room remain), exactly the first `k` bytes of
the little-endian patched value are written, the decoder breaks out of its
loop and returns exactly `original_size` bytes, and no write outside the
output buffer's `original_size` capacity occurs (every store is
bounds-checked and succeeds).  The first conjunct is the patch-emission
step itself; the second runs one full loop iteration that decodes bit 1 and
hits the truncation. -/
theorem c5_truncated_patch :
    (∀ (outBuf : List ℕ) (outPos outSize dest prev k : ℕ),
      (k = 1 ∨ k = 2 ∨ k = 3) → outPos + k = outSize → outBuf.length = outSize →
      writeDest outBuf outPos outSize dest prev =
        some (outBuf.take outPos ++ (leBytes4 dest).take k, outSize, prev, true)) ∧
    (∀ (buf0 : List ℕ) (size0 : ℕ) (buf1 buf2 buf3 : List ℕ) (size3 outSize fuel : ℕ)
        (st : Bcj2St) (cr : CopyRes) (b v0 v1 v2 v3 k : ℕ)
        (probs2 : List ℕ) (range2 code2 range3 code3 pos3b : ℕ),
      copyRun buf0 (min (size0 - st.inPos) (outSize - st.outPos)) st.inPos st.outBuf
          st.outPos st.prev = some cr →
      cr.trig = some b →
      buf0[cr.inPos]? = some b →
      b = 232 →
      rcDecodeBit st.probs (if b = 232 then cr.prev else if b = 233 then 256 else 257)
          st.range st.code = some (true, probs2, range2, code2) →
      rcNormalize buf3 size3 range2 code2 st.pos3 = some (.ok range3 code3 pos3b) →
      ¬ st.rem1 < 4 →
      get4 buf1 st.pos1 = some (v0, v1, v2, v3) →
      cr.outBuf.length = outSize →
      (k = 1 ∨ k = 2 ∨ k = 3) →
      cr.outPos + k = outSize →
      bcj2Loop buf0 size0 buf1 buf2 buf3 size3 outSize (fuel + 1) st =
          some ⟨cr.outBuf.take cr.outPos ++
              (leBytes4 (bcjDest (be32 v0 v1 v2 v3) cr.outPos)).take k,
            cr.inPos + 1, st.pos1 + 4, st.pos2, pos3b⟩ ∧
        (cr.outBuf.take cr.outPos ++
            (leBytes4 (bcjDest (be32 v0 v1 v2 v3) cr.outPos)).take k).length = outSize) := by
  constructor
  · intro outBuf outPos outSize dest prev k hk3 hk hlen
    exact writeDest_exact outBuf outPos outSize dest prev k hk3 hk hlen
  · intro buf0 size0 buf1 buf2 buf3 size3 outSize fuel st cr b v0 v1 v2 v3 k probs2
      range2 code2 range3 code3 pos3b hcr htr hread hb hbit hnorm hrem hget4 hblen hk3 hk
    subst hb
    have hlen2 : (cr.outBuf.take cr.outPos ++
        (leBytes4 (bcjDest (be32 v0 v1 v2 v3) cr.outPos)).take k).length = outSize := by
      simp only [List.length_append, List.length_take, leBytes4, List.length_cons,
        List.length_nil]
      omega
    refine ⟨?_, hlen2⟩
    have hwd := writeDest_exact cr.outBuf cr.outPos outSize
      (bcjDest (be32 v0 v1 v2 v3) cr.outPos) cr.prev k hk3 hk hblen
    have htake : (cr.outBuf.take cr.outPos ++
        (leBytes4 (bcjDest (be32 v0 v1 v2 v3) cr.outPos)).take k).take outSize =
        cr.outBuf.take cr.outPos ++
          (leBytes4 (bcjDest (be32 v0 v1 v2 v3) cr.outPos)).take k :=
      List.take_of_length_le (by omega)
    have hk1 : ¬ cr.outPos = outSize := by omega
    rw [bcj2Loop, hcr]
    obtain ⟨cob, cop, cip, cpr, ctr⟩ := cr
    subst htr
    simp only at hread hbit hnorm hget4 hwd htake hk1 ⊢
    simp only [if_neg hk1, hread, hbit, hnorm, hget4, hwd, if_neg hrem, htake]
    norm_num

set_option maxRecDepth 8192

/-- Witness for C5 at a concrete input: main stream `[0xE8]`, a CALL
address `0x00000010`, `original_size = 2`, so exactly `k = 1` byte of the
patched address fits. -/
theorem c5_truncated_patch_witness :
    bcj2Loop [232] 1 [0, 0, 0, 16] [] [0, 255, 255, 255, 255] 5 2 1
        ⟨bcj2InitProbs, 0, [0, 0], 0, 0, 4294967295, 4294967295, 0, 4, 0, 0, 5⟩ =
        some ⟨[232, 0].take 1 ++ (leBytes4 (bcjDest (be32 0 0 0 16) 1)).take 1,
          1, 4, 0, 5⟩ ∧
      ([232, 0].take 1 ++ (leBytes4 (bcjDest (be32 0 0 0 16) 1)).take 1).length = 2 :=
  c5_truncated_patch.2 [232] 1 [0, 0, 0, 16] [] [0, 255, 255, 255, 255] 5 2 0
    ⟨bcj2InitProbs, 0, [0, 0], 0, 0, 4294967295, 4294967295, 0, 4, 0, 0, 5⟩
    ⟨[232, 0], 1, 0, 0, some 232⟩ 232 0 0 0 16 1 (bcj2InitProbs.set 0 992)
    2147484671 2147484671 2147484671 2147484671 5
    rfl rfl rfl rfl rfl rfl (by decide) rfl rfl (Or.inl rfl) rfl

/-! ## Claim C6: declared sizes vs actual buffer bounds -/

/-- The copy loop cannot fail when the main stream really has
`inPos + limit` bytes and the output buffer has `outPos + limit` cells. -/
lemma copyRun_some (buf0 : List ℕ) (hb : ∀ x ∈ buf0, x < 256) :
    ∀ (limit inPos : ℕ) (outBuf : List ℕ) (outPos prev : ℕ),
      inPos + limit ≤ buf0.length → outPos + limit ≤ outBuf.length → prev < 256 →
      ∃ cr, copyRun buf0 limit inPos outBuf outPos prev = some cr ∧
        cr.outBuf.length = outBuf.length ∧ cr.prev < 256 ∧
        inPos ≤ cr.inPos ∧
        (cr.trig = none → cr.inPos = inPos + limit ∧ cr.outPos = outPos + limit) ∧
        (∀ b2, cr.trig = some b2 → cr.inPos < inPos + limit ∧
          cr.outPos = outPos + (cr.inPos - inPos) + 1 ∧ b2 < 256) := by
  intro limit
  induction limit with
  | zero =>
    intro inPos outBuf outPos prev h1 h2 h3
    refine ⟨⟨outBuf, outPos, inPos, prev, none⟩, rfl, rfl, h3, le_refl _, ?_, ?_⟩
    · intro _
      exact ⟨rfl, rfl⟩
    · intro b2 hb2
      cases hb2
  | succ n ih =>
    intro inPos outBuf outPos prev h1 h2 h3
    obtain ⟨b0, hb0⟩ : ∃ b0, buf0[inPos]? = some b0 := by
      cases hx : buf0[inPos]? with
      | none => rw [List.getElem?_eq_none_iff] at hx; omega
      | some y => exact ⟨y, rfl⟩
    have hb0lt : b0 < 256 := hb _ (List.getElem?_mem hb0)
    have hset := setAt_of_lt outBuf outPos b0 (by omega)
    by_cases hj : isJ prev b0 = true
    · refine ⟨⟨outBuf.set outPos b0, outPos + 1, inPos, prev, some b0⟩, ?_, by simp, h3,
        le_refl _, ?_, ?_⟩
      · rw [copyRun]
        simp only [hb0, hset, if_pos hj]
      · intro h
        cases h
      · intro b2 hb2
        simp only [Option.some.injEq] at hb2
        subst hb2
        exact ⟨show inPos < inPos + (n + 1) by omega,
          show outPos + 1 = outPos + (inPos - inPos) + 1 by omega, hb0lt⟩
    · obtain ⟨cr, hcr, hl, hp, hi, hn, ht⟩ := ih (inPos + 1) (outBuf.set outPos b0)
        (outPos + 1) b0 (by omega) (by simp only [List.length_set]; omega) hb0lt
      refine ⟨cr, ?_, by simpa using hl, hp, by omega, ?_, ?_⟩
      · rw [copyRun]
        simp only [hb0, hset, if_neg hj]
        exact hcr
      · intro h
        obtain ⟨ha, hb'⟩ := hn h
        exact ⟨by omega, by omega⟩
      · intro b2 hb2
        obtain ⟨ha, hb', hc⟩ := ht b2 hb2
        exact ⟨by omega, by omega, hc⟩

/-- The 4-byte slice read succeeds when the buffer really holds
`pos + 4` bytes. -/
lemma get4_some {l : List ℕ} {pos : ℕ} (h : pos + 4 ≤ l.length) :
    ∃ a b c d, get4 l pos = some (a, b, c, d) ∧ a ∈ l ∧ b ∈ l ∧ c ∈ l ∧ d ∈ l := by
  have e0 := List.getElem?_eq_getElem (show pos < l.length by omega)
  have e1 := List.getElem?_eq_getElem (show pos + 1 < l.length by omega)
  have e2 := List.getElem?_eq_getElem (show pos + 2 < l.length by omega)
  have e3 := List.getElem?_eq_getElem (show pos + 3 < l.length by omega)
  refine ⟨_, _, _, _, ?_, List.getElem?_mem e0, List.getElem?_mem e1,
    List.getElem?_mem e2, List.getElem?_mem e3⟩
  unfold get4
  rw [e0, e1, e2, e3]

/-- The little-endian patch emission never fails when the cursor is inside
the correctly sized output buffer, and it preserves the invariants. -/
lemma writeDest_some (outBuf : List ℕ) (outPos outSize dest prev : ℕ)
    (hlen : outBuf.length = outSize) (hlt : outPos < outSize) (hprev : prev < 256) :
    ∃ outBuf2 outPos2 prev2 broke,
      writeDest outBuf outPos outSize dest prev = some (outBuf2, outPos2, prev2, broke) ∧
      outBuf2.length = outSize ∧ prev2 < 256 ∧ outPos2 ≤ outSize ∧
      (broke = false → outPos2 = outPos + 4) := by
  unfold writeDest
  simp only [setAt_of_lt outBuf outPos (dest % 256) (by omega)]
  by_cases h1 : outPos + 1 = outSize
  · rw [if_pos h1]
    exact ⟨_, _, _, _, rfl, by simp [hlen], hprev, by omega, by simp⟩
  · rw [if_neg h1]
    simp only [setAt_of_lt (outBuf.set outPos (dest % 256)) (outPos + 1) ((dest >>> 8) % 256)
      (by simp only [List.length_set]; omega)]
    by_cases h2 : outPos + 2 = outSize
    · rw [if_pos h2]
      exact ⟨_, _, _, _, rfl, by simp [hlen], hprev, by omega, by simp⟩
    · rw [if_neg h2]
      simp only [setAt_of_lt ((outBuf.set outPos (dest % 256)).set (outPos + 1)
        ((dest >>> 8) % 256)) (outPos + 2) ((dest >>> 16) % 256)
        (by simp only [List.length_set]; omega)]
      by_cases h3 : outPos + 3 = outSize
      · rw [if_pos h3]
        exact ⟨_, _, _, _, rfl, by simp [hlen], hprev, by omega, by simp⟩
      · rw [if_neg h3]
        simp only [setAt_of_lt (((outBuf.set outPos (dest % 256)).set (outPos + 1)
          ((dest >>> 8) % 256)).set (outPos + 2) ((dest >>> 16) % 256)) (outPos + 3)
          ((dest >>> 24) % 256) (by simp only [List.length_set]; omega)]
        exact ⟨_, _, _, _, rfl, by simp [hlen], by omega, by omega, fun _ => rfl⟩

/-- The range-coder seeding never fails when the actual stream-3 buffer
covers the declared `size3`. -/
lemma rcInit_some (buf3 : List ℕ) (size3 : ℕ) (h3 : size3 ≤ buf3.length) :
    ∀ (n code pos3 : ℕ), pos3 ≤ size3 →
      ∃ r, rcInit buf3 size3 n code pos3 = some r ∧
        (∀ c q, r = Sum.inl (c, q) → q ≤ size3) ∧
        (∀ c q, r = Sum.inr (c, q) → q ≤ size3) := by
  intro n
  induction n with
  | zero =>
    intro code pos3 hp
    refine ⟨Sum.inr (code, pos3), rfl, ?_, ?_⟩
    · intro c q h
      cases h
    · intro c q h
      injection h with h2
      injection h2 with h3 h4
      omega
  | succ m ih =>
    intro code pos3 hp
    rw [rcInit]
    by_cases hge : size3 ≤ pos3
    · rw [if_pos hge]
      refine ⟨Sum.inl (code, pos3), rfl, ?_, ?_⟩
      · intro c q h
        injection h with h2
        injection h2 with h3 h4
        omega
      · intro c q h
        cases h
    · rw [if_neg hge]
      have hlt : pos3 < buf3.length := by omega
      rw [List.getElem?_eq_getElem hlt]
      exact ih _ (pos3 + 1) (by omega)

/-- Normalization never raises when the actual stream-3 buffer covers the
declared `size3`; the exhausted case is a normal early return. -/
lemma rcNormalize_some (buf3 : List ℕ) (size3 range code pos3 : ℕ)
    (h3 : size3 ≤ buf3.length) (hp : pos3 ≤ size3) :
    ∃ r, rcNormalize buf3 size3 range code pos3 = some r ∧
      ∀ r2 c2 p2, r = .ok r2 c2 p2 → p2 ≤ size3 := by
  unfold rcNormalize
  by_cases h1 : range < 16777216
  · rw [if_pos h1]
    by_cases h2 : size3 ≤ pos3
    · rw [if_pos h2]
      refine ⟨.exhausted, rfl, ?_⟩
      intro r2 c2 p2 h
      cases h
    · rw [if_neg h2]
      rw [List.getElem?_eq_getElem (show pos3 < buf3.length by omega)]
      refine ⟨_, rfl, ?_⟩
      intro r2 c2 p2 h
      injection h with h4
      omega
  · rw [if_neg h1]
    refine ⟨_, rfl, ?_⟩
    intro r2 c2 p2 h
    injection h with h4
    omega

/-- The decode loop never raises an `IndexError` when every declared size is
covered by the corresponding actual buffer: it always returns `some`
(complete or truncated output). -/
lemma bcj2Loop_isSome (buf0 : List ℕ) (size0 : ℕ) (buf1 buf2 buf3 : List ℕ)
    (size1 size2 size3 outSize : ℕ)
    (h0 : size0 ≤ buf0.length) (h1 : size1 ≤ buf1.length) (h2 : size2 ≤ buf2.length)
    (h3 : size3 ≤ buf3.length) (hb : ∀ x ∈ buf0, x < 256) :
    ∀ (fuel : ℕ) (st : Bcj2St), size0 - st.inPos < fuel →
      st.inPos ≤ size0 → st.outPos ≤ outSize → st.outBuf.length = outSize →
      st.prev < 256 → st.probs.length = 258 →
      st.pos1 + st.rem1 = size1 → st.pos2 + st.rem2 = size2 → st.pos3 ≤ size3 →
      (bcj2Loop buf0 size0 buf1 buf2 buf3 size3 outSize fuel st).isSome := by
  intro fuel
  induction fuel with
  | zero =>
    intro st hf
    exact absurd hf (by omega)
  | succ n ih =>
    intro st hf hin hop hol hpr hprobs hp1 hp2 hp3
    rw [bcj2Loop]
    set limit := min (size0 - st.inPos) (outSize - st.outPos) with hlim
    obtain ⟨cr, hcr, hclen, hcprev, hcin, hcnone, hcsome⟩ :=
      copyRun_some buf0 hb limit st.inPos st.outBuf st.outPos st.prev
        (by omega) (by omega) hpr
    simp only [hcr]
    cases htr : cr.trig with
    | none => rfl
    | some b =>
      simp only
      by_cases hfull : cr.outPos = outSize
      · rw [if_pos hfull]
        rfl
      · rw [if_neg hfull]
        obtain ⟨hcf, hcp, hblt⟩ := hcsome b htr
        obtain ⟨-, hread, -, -, -, -⟩ :=
          copyRun_trig buf0 limit st.inPos st.outBuf st.outPos st.prev cr b hcr htr
        simp only [hread]
        obtain ⟨ttt, httt⟩ : ∃ t,
            st.probs[(if b = 232 then cr.prev else if b = 233 then 256 else 257)]? = some t := by
          cases hx : st.probs[(if b = 232 then cr.prev else if b = 233 then 256 else 257)]? with
          | none =>
            rw [List.getElem?_eq_none_iff, hprobs] at hx
            split at hx
            · omega
            · split at hx <;> omega
          | some y => exact ⟨y, rfl⟩
        have hdec : ∃ bit probs2 range2 code2,
            rcDecodeBit st.probs (if b = 232 then cr.prev else if b = 233 then 256 else 257)
              st.range st.code = some (bit, probs2, range2, code2) ∧ probs2.length = 258 := by
          unfold rcDecodeBit
          rw [httt]
          simp only
          split
          · exact ⟨_, _, _, _, rfl, by simp only [List.length_set]; omega⟩
          · exact ⟨_, _, _, _, rfl, by simp only [List.length_set]; omega⟩
        obtain ⟨bit, probs2, range2, code2, hdec, hplen2⟩ := hdec
        simp only [hdec]
        obtain ⟨nr, hnr, hnrok⟩ := rcNormalize_some buf3 size3 range2 code2 st.pos3 h3 hp3
        cases nr with
        | exhausted =>
          simp only [hnr]
          rfl
        | ok range3 code3 pos3b =>
          have hpos3b : pos3b ≤ size3 := hnrok _ _ _ rfl
          simp only [hnr]
          by_cases hbit : bit = false
          · rw [if_pos hbit]
            exact ih ⟨probs2, cr.inPos + 1, cr.outBuf, cr.outPos, b, range3, code3,
                st.pos1, st.rem1, st.pos2, st.rem2, pos3b⟩
              (show size0 - (cr.inPos + 1) < n by omega)
              (show cr.inPos + 1 ≤ size0 by omega)
              (show cr.outPos ≤ outSize by omega)
              (show cr.outBuf.length = outSize by omega)
              (show b < 256 from hblt)
              (show probs2.length = 258 from hplen2)
              (show st.pos1 + st.rem1 = size1 from hp1)
              (show st.pos2 + st.rem2 = size2 from hp2)
              (show pos3b ≤ size3 from hpos3b)
          · rw [if_neg hbit]
            by_cases hbE8 : b = 232
            · rw [if_pos hbE8]
              by_cases hrem : st.rem1 < 4
              · rw [if_pos hrem]
                rfl
              · rw [if_neg hrem]
                obtain ⟨v0, v1, v2, v3, hg4, -, -, -, -⟩ :=
                  get4_some (show st.pos1 + 4 ≤ buf1.length by omega)
                simp only [hg4]
                obtain ⟨ob2, op2, pv2, brk, hwd, hwlen, hwprev, hwle, hwfalse⟩ :=
                  writeDest_some cr.outBuf cr.outPos outSize
                    (bcjDest (be32 v0 v1 v2 v3) cr.outPos) cr.prev (by omega) (by omega) hcprev
                simp only [hwd]
                cases brk with
                | true => rfl
                | false =>
                  have hop2 : op2 = cr.outPos + 4 := hwfalse rfl
                  simp only [Bool.false_eq_true, if_false]
                  exact ih ⟨probs2, cr.inPos + 1, ob2, op2, pv2, range3, code3,
                      st.pos1 + 4, st.rem1 - 4, st.pos2, st.rem2, pos3b⟩
                    (show size0 - (cr.inPos + 1) < n by omega)
                    (show cr.inPos + 1 ≤ size0 by omega)
                    (show op2 ≤ outSize from hwle)
                    (show ob2.length = outSize from hwlen)
                    (show pv2 < 256 from hwprev)
                    (show probs2.length = 258 from hplen2)
                    (show st.pos1 + 4 + (st.rem1 - 4) = size1 by omega)
                    (show st.pos2 + st.rem2 = size2 from hp2)
                    (show pos3b ≤ size3 from hpos3b)
            · rw [if_neg hbE8]
              by_cases hrem : st.rem2 < 4
              · rw [if_pos hrem]
                rfl
              · rw [if_neg hrem]
                obtain ⟨v0, v1, v2, v3, hg4, -, -, -, -⟩ :=
                  get4_some (show st.pos2 + 4 ≤ buf2.length by omega)
                simp only [hg4]
                obtain ⟨ob2, op2, pv2, brk, hwd, hwlen, hwprev, hwle, hwfalse⟩ :=
                  writeDest_some cr.outBuf cr.outPos outSize
                    (bcjDest (be32 v0 v1 v2 v3) cr.outPos) cr.prev (by omega) (by omega) hcprev
                simp only [hwd]
                cases brk with
                | true => rfl
                | false =>
                  have hop2 : op2 = cr.outPos + 4 := hwfalse rfl
                  simp only [Bool.false_eq_true, if_false]
                  exact ih ⟨probs2, cr.inPos + 1, ob2, op2, pv2, range3, code3,
                      st.pos1, st.rem1, st.pos2 + 4, st.rem2 - 4, pos3b⟩
                    (show size0 - (cr.inPos + 1) < n by omega)
                    (show cr.inPos + 1 ≤ size0 by omega)
                    (show op2 ≤ outSize from hwle)
                    (show ob2.length = outSize from hwlen)
                    (show pv2 < 256 from hwprev)
                    (show probs2.length = 258 from hplen2)
                    (show st.pos1 + st.rem1 = size1 from hp1)
                    (show st.pos2 + 4 + (st.rem2 - 4) = size2 by omega)
                    (show pos3b ≤ size3 from hpos3b)

/-- `bcj2_decode` never raises when each declared size is covered by the
actual buffer passed for that stream. -/
lemma bcj2_decode_isSome (buf0 : List ℕ) (size0 : ℕ) (buf1 : List ℕ) (size1 : ℕ)
    (buf2 : List ℕ) (size2 : ℕ) (buf3 : List ℕ) (size3 : ℕ) (outSize : ℕ)
    (h0 : size0 ≤ buf0.length) (h1 : size1 ≤ buf1.length) (h2 : size2 ≤ buf2.length)
    (h3 : size3 ≤ buf3.length) (hb : ∀ x ∈ buf0, x < 256) :
    (bcj2_decode buf0 size0 buf1 size1 buf2 size2 buf3 size3 outSize).isSome := by
  unfold bcj2_decode
  obtain ⟨r, hr, hinl, hinr⟩ := rcInit_some buf3 size3 h3 5 0 0 (by omega)
  rw [hr]
  cases r with
  | inl p =>
    obtain ⟨c, q⟩ := p
    rfl
  | inr p =>
    obtain ⟨code, pos3⟩ := p
    simp only
    by_cases ho : outSize = 0
    · rw [if_pos ho]
      rfl
    · rw [if_neg ho]
      exact bcj2Loop_isSome buf0 size0 buf1 buf2 buf3 size1 size2 size3 outSize
        h0 h1 h2 h3 hb (size0 + 1)
        ⟨bcj2InitProbs, 0, List.replicate outSize 0, 0, 0, 4294967295, code,
          0, size1, 0, size2, pos3⟩
        (show size0 - 0 < size0 + 1 by omega)
        (show 0 ≤ size0 by omega)
        (show 0 ≤ outSize by omega)
        (show (List.replicate outSize 0).length = outSize by simp)
        (show 0 < 256 by omega)
        (show bcj2InitProbs.length = 258 by simp [bcj2InitProbs])
        (show 0 + size1 = size1 by omega)
        (show 0 + size2 = size2 by omega)
        (show pos3 ≤ size3 from hinr code pos3 rfl)

/-- Counterexample for C6 as stated: a post-decompression input whose
header declares `stream3_size = 5` with zero bytes actually available after
the 20-byte header.  The declared sizes sum to more than the available
bytes, and the pipeline crashes (uncaught `IndexError` reading `buf3[0]`,
modelled as `none`) instead of clipping the read. -/
theorem c6_counterexample :
    pipelineDecode [0, 0, 0, 0, 0, 0, 0, 0, 0, 0, 0, 0, 0, 0, 0, 0, 5, 0, 0, 0] = none := rfl

/-- Claim C6 (amended): the pipeline proceeds on the declared sizes, but
reads are *not* clipped to the actual buffer bounds.  Whenever the declared
sizes sum to at most the available post-header bytes (so each stream's
sliced buffer covers its declared size), decoding cannot crash.  When a
declared size exceeds the actually available bytes, a read past the true
end of a stream buffer — if the decode path reaches one, as in the
counterexample — raises an uncaught `IndexError` that crashes the
pipeline. -/
theorem c6_size_mismatch (data : List ℕ)
    (hlen : 20 ≤ data.length)
    (hbytes : ∀ x ∈ data, x < 256)
    (hsum : readLE32 data 4 + readLE32 data 8 + readLE32 data 12 + readLE32 data 16 ≤
      data.length - 20) :
    (pipelineDecode data).isSome := by
  simp only [pipelineDecode]
  rw [if_neg (by omega)]
  apply bcj2_decode_isSome
  · simp only [List.length_take, List.length_drop]
    omega
  · simp only [List.length_take, List.length_drop]
    omega
  · simp only [List.length_take, List.length_drop]
    omega
  · simp only [List.length_take, List.length_drop]
    omega
  · intro x hx
    exact hbytes x (List.mem_of_mem_drop (List.mem_of_mem_take hx))

/-- Witness for the amended C6 at a concrete input (an all-zero header,
declared sizes summing to exactly the available zero bytes). -/
theorem c6_size_mismatch_witness : (pipelineDecode (List.replicate 20 0)).isSome :=
  c6_size_mismatch (List.replicate 20 0) (by decide) (by decide) (by decide)
